import Mathlib

/-!
The driver `chardrv`: a character device listing the process table.

Shallow embedding of `src/chardrv.c` (the file operations `dev_open`,
`dev_read`, `dev_write`, `dev_release`) and the properties of its
session protocol.

Conventions of the embedding.

* Bytes are natural numbers (`0` is the NUL terminator).
* `msg` is the image of memory starting at `&msg[0]`: a list of bytes whose
  first `BUF_LEN` entries are the array `static char msg[BUF_LEN]`.  A list
  longer than `BUF_LEN` records bytes that were stored behind the array.
* Integers follow the LP64 data model of a 64-bit Linux kernel built by gcc
  with wrapping arithmetic: `size_t` is an unsigned and `ssize_t`, `loff_t`
  are signed 64-bit words.  Wrapping is written out with `toU64` / `toS64`.
* The kernel primitive `copy_to_user` is modelled by the number `room` of
  writable bytes behind the caller's pointer: it copies what fits and returns
  the number of bytes left over.
* `printk` only logs and is left out.
-/

namespace Chardrv

/-! ## Constants -/

/-- Source: `#define BUF_LEN 8000`, the size of `msg`. -/
def BUF_LEN : Nat := 8000

/-- Linux errno `EFAULT` (bad address), from `errno-base.h`. -/
def EFAULT : Int := 14

/-- Largest value of `ssize_t` (63 bits). -/
def SSIZE_MAX : Nat := 9223372036854775807

/-! ## Machine words -/

/-- Conversion of an integer to an unsigned 64-bit word. -/
def toU64 (x : Int) : Nat := (x % 18446744073709551616).toNat

/-- Conversion of an integer to a signed 64-bit word (two's complement). -/
def toS64 (x : Int) : Int :=
  if x % 18446744073709551616 < 9223372036854775808 then x % 18446744073709551616
  else x % 18446744073709551616 - 18446744073709551616

/-! ## C strings and `sprintf` -/

/-- Bytes of an ASCII string literal. -/
def bytes (s : String) : List Nat := s.toList.map Char.toNat

/-- The C string stored at the start of `m`: the bytes before the first NUL. -/
def cstr (m : List Nat) : List Nat := m.takeWhile (fun b => b != 0)

/-- C `strlen`: number of bytes before the first NUL. -/
def strlen (m : List Nat) : Nat := (cstr m).length

/-- Output of the conversion `%d` for a natural number: its decimal digits,
most significant first. -/
def decimalNat (n : Nat) : List Nat := (Nat.toDigits 10 n).map Char.toNat

/-- Output of the conversion `%d`. -/
def decimal (v : Int) : List Nat :=
  if v < 0 then 45 :: decimalNat v.natAbs else decimalNat v.natAbs

/-- A process as `for_each_process` presents it: `task->comm` and `task->pid`. -/
structure Task where
  comm : List Nat
  pid : Int

/-- Text produced by the format `"%s %d \n"` for `task->comm, task->pid`. -/
def fmt (t : Task) : List Nat :=
  cstr t.comm ++ [32] ++ decimal t.pid ++ [32, 10]

/-- Store the bytes `bs` at displacement `k` of `m`. -/
def store (m : List Nat) (k : Nat) (bs : List Nat) : List Nat :=
  m.take k ++ bs ++ m.drop (k + bs.length)

/-- One loop body of `dev_open`:
`sprintf(msg + strlen(msg), "%s %d \n", task->comm, task->pid)`;
`sprintf` stores the text and a terminating NUL. -/
def sprintf_task (msg : List Nat) (t : Task) : List Nat :=
  store msg (strlen msg) (fmt t ++ [0])

/-! ## File operations -/

/-- Result of a file operation: the returned value, the memory at `msg`,
the file position `*offset`, and the bytes stored into the caller's buffer. -/
structure Outcome where
  ret : Int
  msg : List Nat
  offset : Int
  user : List Nat
  deriving DecidableEq

/-- Result of `dev_open`: the returned status and the memory at `msg`. -/
structure Opened where
  ret : Int
  msg : List Nat
  deriving DecidableEq

/-- Source: `dev_open`.  The loop `for_each_process` visits `tasks` in order;
the function then returns 0. -/
def dev_open (msg : List Nat) (tasks : List Task) : Opened :=
  { ret := 0, msg := tasks.foldl sprintf_task msg }

/-- Kernel primitive `copy_to_user(to, from, n)` for a caller buffer with
`room` writable bytes: the number of bytes that could not be copied. -/
def copy_to_user (room n : Nat) : Nat := n - room

/-- Source: the local `bytes` of `dev_read`,
`length < (BUF_LEN-(*offset)) ? length : (BUF_LEN-(*offset))`.
The subtraction is done in `long long`; comparison and selection are done in
`unsigned long long`; the result is converted to `ssize_t`. -/
def read_count (length : Nat) (offset : Int) : Int :=
  let avail : Nat := toU64 (toS64 ((BUF_LEN : Int) - offset))
  toS64 (if length < avail then length else avail)

/-- Source: `dev_read`.  `copy_to_user(buffer, msg, bytes)` copies from the
start of `msg`; when it reports uncopied bytes the function returns `-EFAULT`
with `*offset` untouched, otherwise it adds `bytes` to `*offset` and returns
`bytes`.  The field `user` holds the bytes that reached the caller's buffer. -/
def dev_read (msg : List Nat) (room length : Nat) (offset : Int) : Outcome :=
  let n : Nat := toU64 (read_count length offset)
  if copy_to_user room n ≠ 0 then
    { ret := -EFAULT, msg := msg, offset := offset, user := msg.take (min n room) }
  else
    { ret := read_count length offset, msg := msg,
      offset := toS64 (offset + read_count length offset), user := msg.take n }

/-- Source: `dev_write`; `return len` converts `size_t` to `ssize_t`. -/
def dev_write (msg : List Nat) (_buffer : List Nat) (len : Nat) (offset : Int) : Outcome :=
  { ret := toS64 len, msg := msg, offset := offset, user := [] }

/-- Source: `dev_release`. -/
def dev_release (_msg : List Nat) : Int := 0

/-! ## Sessions -/

/-- A call made on an open file: a read into a buffer with `room` writable
bytes, or a write. -/
inductive Call where
  | read (room length : Nat)
  | write (buffer : List Nat) (len : Nat)

/-- Perform one call at file position `pos`. -/
def call (msg : List Nat) (pos : Int) : Call → Outcome
  | .read room length => dev_read msg room length pos
  | .write buffer len => dev_write msg buffer len pos

/-- Outcomes of a sequence of calls, each starting at the position the
previous one left. -/
def run (msg : List Nat) : Int → List Call → List Outcome
  | _, [] => []
  | pos, c :: cs => call msg pos c :: run msg (call msg pos c).offset cs

/-- File position after a sequence of calls. -/
def finalPos (msg : List Nat) : Int → List Call → Int
  | pos, [] => pos
  | pos, c :: cs => finalPos msg (call msg pos c).offset cs

/-- Static initial content of `msg`: all zero. -/
def msg0 : List Nat := List.replicate BUF_LEN 0

/-- Process table of Scenario A. -/
def scenarioA : List Task :=
  [⟨bytes "init", 1⟩, ⟨bytes "kworker", 12⟩]

/-- Text of the listing of `tasks`: their formatted lines in order. -/
def listing (tasks : List Task) : List Nat := (tasks.map fmt).flatten

/-- The line the specification prescribes for a task, `"<name> <id> \n"`: the
name, one space, the decimal identifier, one space, a newline. -/
def line (t : Task) : List Nat :=
  cstr t.comm ++ bytes " " ++ bytes (toString t.pid) ++ bytes " \n"

/-- The transfer of a read succeeds: `copy_to_user` reports no uncopied byte. -/
@[reducible] def succeeds (room length : Nat) (offset : Int) : Prop :=
  copy_to_user room (toU64 (read_count length offset)) = 0

/-- Sum of the byte counts returned by the successful reads of a sequence of
calls started at position `pos`. -/
def bytesRead (msg : List Nat) : Int → List Call → Int
  | _, [] => 0
  | pos, Call.read room length :: cs =>
    (if succeeds room length pos then (dev_read msg room length pos).ret else 0)
      + bytesRead msg (dev_read msg room length pos).offset cs
  | pos, Call.write buffer len :: cs =>
    bytesRead msg (dev_write msg buffer len pos).offset cs

/-- The message buffer after the first open of Scenario A. -/
def msgA : List Nat := (dev_open msg0 scenarioA).msg

/-- A process table of 2001 tasks named `sh` with the identifiers 1 to 2001. -/
def manyTasks : List Task := (List.range 2001).map (fun (i : Nat) => ({ comm := bytes "sh", pid := (i : Int) + 1 } : Task))

/-! ## Lemmas on C strings and `sprintf` -/

theorem cstr_append_nul (t m : List Nat) (h : ∀ b ∈ t, b ≠ 0) :
    cstr (t ++ 0 :: m) = t := by
  unfold cstr
  rw [List.takeWhile_append_of_pos]
  · simp
  · intro a ha
    simpa using h a ha

theorem cstr_nonzero (m : List Nat) : ∀ b ∈ cstr m, b ≠ 0 := by
  intro b hb
  have := List.mem_takeWhile_imp hb
  simpa using this

theorem take_strlen (m : List Nat) : m.take (strlen m) = cstr m := by
  have h : cstr m <+: m := List.takeWhile_prefix _
  exact (List.prefix_iff_eq_take.mp h).symm

theorem strlen_le (m : List Nat) : strlen m ≤ m.length := by
  have h : cstr m <+: m := List.takeWhile_prefix _
  exact h.length_le

theorem digitChar_toNat : ∀ d, d < 10 → (Nat.digitChar d).toNat = 48 + d := by
  decide

theorem toDigitsCore_nonzero (fuel n : Nat) (acc : List Char)
    (h : ∀ c ∈ acc, c.toNat ≠ 0) :
    ∀ c ∈ Nat.toDigitsCore 10 fuel n acc, c.toNat ≠ 0 := by
  induction fuel generalizing n acc with
  | zero => simpa [Nat.toDigitsCore] using h
  | succ k ih =>
    have hd : (Nat.digitChar (n % 10)).toNat ≠ 0 := by
      rw [digitChar_toNat _ (Nat.mod_lt _ (by decide))]
      omega
    have hacc : ∀ c ∈ Nat.digitChar (n % 10) :: acc, c.toNat ≠ 0 := by
      intro c hc
      rcases List.mem_cons.mp hc with rfl | hc
      · exact hd
      · exact h c hc
    unfold Nat.toDigitsCore
    simp only
    split
    · exact hacc
    · exact ih _ _ hacc

theorem decimalNat_nonzero (n : Nat) : ∀ b ∈ decimalNat n, b ≠ 0 := by
  intro b hb
  unfold decimalNat at hb
  obtain ⟨c, hc, rfl⟩ := List.mem_map.mp hb
  exact toDigitsCore_nonzero _ _ [] (by simp) c hc

theorem decimal_nonzero (v : Int) : ∀ b ∈ decimal v, b ≠ 0 := by
  intro b hb
  unfold decimal at hb
  split at hb
  · rcases List.mem_cons.mp hb with rfl | hb
    · omega
    · exact decimalNat_nonzero _ b hb
  · exact decimalNat_nonzero _ b hb

theorem fmt_nonzero (t : Task) : ∀ b ∈ fmt t, b ≠ 0 := by
  intro b hb
  unfold fmt at hb
  simp only [List.mem_append, List.mem_cons, List.mem_singleton, List.not_mem_nil,
    or_false] at hb
  rcases hb with ((hb | hb) | hb) | hb
  · exact cstr_nonzero _ b hb
  · omega
  · exact decimal_nonzero _ b hb
  · omega

theorem cstr_sprintf_task (m : List Nat) (t : Task) :
    cstr (sprintf_task m t) = cstr m ++ fmt t := by
  unfold sprintf_task store
  rw [take_strlen]
  have : cstr m ++ (fmt t ++ [0]) ++ List.drop (strlen m + (fmt t ++ [0]).length) m
      = (cstr m ++ fmt t) ++ 0 :: List.drop (strlen m + (fmt t ++ [0]).length) m := by
    simp
  rw [this]
  apply cstr_append_nul
  intro b hb
  rcases List.mem_append.mp hb with hb | hb
  · exact cstr_nonzero _ b hb
  · exact fmt_nonzero _ b hb

theorem cstr_dev_open (m : List Nat) (tasks : List Task) :
    cstr (dev_open m tasks).msg = cstr m ++ listing tasks := by
  unfold dev_open listing
  simp only
  induction tasks generalizing m with
  | nil => simp
  | cons t ts ih =>
    rw [List.foldl_cons, ih, cstr_sprintf_task]
    simp

theorem length_sprintf_task (m : List Nat) (t : Task) :
    (sprintf_task m t).length = max m.length (strlen m + (fmt t).length + 1) := by
  unfold sprintf_task store
  have := strlen_le m
  simp only [List.length_append, List.length_take, List.length_drop, List.length_cons,
    List.length_nil]
  omega

theorem strlen_dev_open (m : List Nat) (tasks : List Task) :
    strlen (dev_open m tasks).msg = strlen m + (listing tasks).length := by
  unfold strlen
  rw [cstr_dev_open, List.length_append]

theorem listing_cons (t : Task) (ts : List Task) :
    listing (t :: ts) = fmt t ++ listing ts := by
  simp [listing]

theorem length_dev_open_fits (m : List Nat) (tasks : List Task)
    (hfit : strlen m + (listing tasks).length + 1 ≤ m.length) :
    (dev_open m tasks).msg.length = m.length := by
  unfold dev_open
  simp only
  induction tasks generalizing m with
  | nil => simp
  | cons t ts ih =>
    rw [listing_cons, List.length_append] at hfit
    have hlen : (sprintf_task m t).length = m.length := by
      rw [length_sprintf_task]
      omega
    have hs : strlen (sprintf_task m t) = strlen m + (fmt t).length := by
      unfold strlen
      rw [cstr_sprintf_task, List.length_append]
    rw [List.foldl_cons, ih, hlen]
    rw [hs, hlen]
    omega

theorem decimalNat_length_pos (n : Nat) : 0 < (decimalNat n).length := by
  unfold decimalNat Nat.toDigits
  rw [List.length_map]
  have key : ∀ fuel k (acc : List Char), 0 < fuel →
      0 < (Nat.toDigitsCore 10 fuel k acc).length := by
    intro fuel
    induction fuel with
    | zero => intro k acc h; omega
    | succ f ih =>
      intro k acc _
      unfold Nat.toDigitsCore
      simp only
      split
      · simp
      · cases f with
        | zero => simp [Nat.toDigitsCore]
        | succ g => exact ih _ _ (by omega)
  exact key _ _ _ (by omega)

theorem fmt_length_ge (t : Task) : 4 ≤ (fmt t).length := by
  unfold fmt decimal
  have := decimalNat_length_pos t.pid.natAbs
  split <;> simp <;> omega

theorem listing_length_ge (tasks : List Task) : 4 * tasks.length ≤ (listing tasks).length := by
  induction tasks with
  | nil => simp [listing]
  | cons t ts ih =>
    rw [listing_cons, List.length_append, List.length_cons]
    have := fmt_length_ge t
    omega

/-! ## Lemmas on the read path -/

theorem read_count_in_range (length : Nat) (p : Int) (h0 : 0 ≤ p) (h1 : p ≤ BUF_LEN) :
    read_count length p = min (length : Int) ((BUF_LEN : Int) - p) := by
  unfold read_count toU64 toS64 BUF_LEN at *
  simp only
  split <;> split <;> split <;> omega

theorem line_eq_fmt (t : Task) : line t = fmt t := by
  unfold line fmt decimal decimalNat
  have h1 : bytes " " = [32] := by decide
  have h2 : bytes " \n" = [32, 10] := by decide
  rw [h1, h2]
  congr 2
  cases hp : t.pid with
  | ofNat n =>
    have : ¬ (Int.ofNat n < 0) := by simp
    rw [if_neg this]
    rfl
  | negSucc n =>
    have : Int.negSucc n < 0 := Int.negSucc_lt_zero n
    rw [if_pos this]
    rfl

theorem map_line_eq (tasks : List Task) : (tasks.map line).flatten = listing tasks := by
  unfold listing
  congr 1
  exact List.map_congr_left (fun t _ => line_eq_fmt t)

theorem dev_read_msg (msg : List Nat) (room length : Nat) (offset : Int) :
    (dev_read msg room length offset).msg = msg := by
  unfold dev_read
  simp only
  split <;> rfl

theorem dev_read_fault (msg : List Nat) (room length : Nat) (offset : Int)
    (h : ¬ succeeds room length offset) :
    (dev_read msg room length offset).ret = -EFAULT ∧
    (dev_read msg room length offset).offset = offset := by
  unfold dev_read
  simp only
  rw [if_pos h]
  exact ⟨rfl, rfl⟩

theorem dev_read_ok (msg : List Nat) (room length : Nat) (offset : Int)
    (h : succeeds room length offset) :
    (dev_read msg room length offset).ret = read_count length offset ∧
    (dev_read msg room length offset).offset = toS64 (offset + read_count length offset) ∧
    (dev_read msg room length offset).user = msg.take (toU64 (read_count length offset)) := by
  unfold dev_read
  simp only
  rw [if_neg (not_not.mpr h)]
  exact ⟨rfl, rfl, rfl⟩

theorem toS64_small (x : Int) (h0 : 0 ≤ x) (h1 : x ≤ BUF_LEN) : toS64 x = x := by
  unfold toS64 BUF_LEN at *
  split <;> omega

theorem dev_read_in_range (msg : List Nat) (room length : Nat) (p : Int)
    (h0 : 0 ≤ p) (h1 : p ≤ BUF_LEN) (h : succeeds room length p) :
    (dev_read msg room length p).ret = min (length : Int) ((BUF_LEN : Int) - p) ∧
    (dev_read msg room length p).offset = p + min (length : Int) ((BUF_LEN : Int) - p) := by
  obtain ⟨hr, ho, _⟩ := dev_read_ok msg room length p h
  rw [hr, ho, read_count_in_range length p h0 h1]
  refine ⟨rfl, toS64_small _ ?_ ?_⟩ <;> omega

theorem call_offset_range (msg : List Nat) (p : Int) (c : Call)
    (h0 : 0 ≤ p) (h1 : p ≤ BUF_LEN) :
    p ≤ (call msg p c).offset ∧ (call msg p c).offset ≤ BUF_LEN := by
  cases c with
  | read room length =>
    unfold call
    by_cases h : succeeds room length p
    · rw [(dev_read_in_range msg room length p h0 h1 h).2]
      omega
    · rw [(dev_read_fault msg room length p h).2]
      omega
  | write buffer len =>
    simp only [call, dev_write]
    omega

theorem finalPos_range (msg : List Nat) (p : Int) (calls : List Call)
    (h0 : 0 ≤ p) (h1 : p ≤ BUF_LEN) :
    p ≤ finalPos msg p calls ∧ finalPos msg p calls ≤ BUF_LEN := by
  induction calls generalizing p with
  | nil => simp only [finalPos]; omega
  | cons c cs ih =>
    have hc := call_offset_range msg p c h0 h1
    have := ih (call msg p c).offset (by omega) hc.2
    simp only [finalPos]
    omega

theorem finalPos_append (msg : List Nat) (p : Int) (xs ys : List Call) :
    finalPos msg p (xs ++ ys) = finalPos msg (finalPos msg p xs) ys := by
  induction xs generalizing p with
  | nil => rfl
  | cons c cs ih =>
    rw [List.cons_append]
    simp only [finalPos]
    exact ih _

theorem bytesRead_eq (msg : List Nat) (p : Int) (calls : List Call)
    (h0 : 0 ≤ p) (h1 : p ≤ BUF_LEN) :
    p + bytesRead msg p calls = finalPos msg p calls := by
  induction calls generalizing p with
  | nil => simp [bytesRead, finalPos]
  | cons c cs ih =>
    have hc := call_offset_range msg p c h0 h1
    cases c with
    | read room length =>
      simp only [call] at hc
      simp only [bytesRead, finalPos, call]
      rw [← ih _ (by omega) hc.2]
      by_cases h : succeeds room length p
      · rw [if_pos h]
        have := dev_read_in_range msg room length p h0 h1 h
        omega
      · rw [if_neg h, (dev_read_fault msg room length p h).2]
        omega
    | write buffer len =>
      simp only [call] at hc
      simp only [bytesRead, finalPos, call]
      rw [← ih _ (by omega) hc.2]
      simp only [dev_write]

theorem msg0_length : msg0.length = BUF_LEN := by
  simp [msg0]

theorem msg0_empty : cstr msg0 = [] := by decide

/-! ## Reads -/

/-- Claim C1 as stated fails: on the buffer of Scenario A, whose text is 20
bytes long, a read of 100 bytes at position 0 into a buffer of 100 bytes
succeeds and returns 100, not `min 100 (max 0 (20 - 0)) = 20`. -/
theorem read_bound_by_valid_length_fails :
    strlen msgA = 20 ∧ succeeds 100 100 0 ∧
    (dev_read msgA 100 100 0).ret = 100 ∧
    ¬ ((dev_read msgA 100 100 0).ret
        = min (100 : Int) (max 0 ((strlen msgA : Int) - 0))) := by
  decide

/-- Claim C1, amended: for every buffer, every requested length and every
position `p` with `0 ≤ p ≤ BUF_LEN`, a read whose transfer succeeds returns
`min length (BUF_LEN - p)`: the bound is the capacity of `msg`, not the length
of its text, and it is never below the bound by the text length. -/
theorem read_bound_by_capacity (msg : List Nat) (room length : Nat) (p : Int)
    (h0 : 0 ≤ p) (h1 : p ≤ BUF_LEN) (hok : succeeds room length p) :
    (dev_read msg room length p).ret = min (length : Int) ((BUF_LEN : Int) - p) ∧
    (strlen msg ≤ BUF_LEN →
      min (length : Int) (max 0 ((strlen msg : Int) - p)) ≤ (dev_read msg room length p).ret) := by
  have h := (dev_read_in_range msg room length p h0 h1 hok).1
  refine ⟨h, fun hs => ?_⟩
  rw [h]
  omega

/-- Instance of `read_bound_by_capacity` on the buffer of Scenario A. -/
theorem read_bound_by_capacity_witness :
    ((0 : Int) ≤ 0 ∧ (0 : Int) ≤ BUF_LEN ∧ succeeds 100 100 0 ∧ strlen msgA ≤ BUF_LEN) ∧
    (dev_read msgA 100 100 0).ret = min ((100 : Nat) : Int) ((BUF_LEN : Int) - 0) ∧
    min ((100 : Nat) : Int) (max 0 ((strlen msgA : Int) - 0)) ≤ (dev_read msgA 100 100 0).ret :=
  ⟨⟨by decide, by decide, by decide, by decide⟩,
    (read_bound_by_capacity msgA 100 100 0 (by decide) (by decide) (by decide)).1,
    (read_bound_by_capacity msgA 100 100 0 (by decide) (by decide) (by decide)).2 (by decide)⟩

/-- Claim C2, evaluated at a failing input: on the buffer of Scenario A a
successful read of 10 bytes at position 10 hands the caller the first 10 bytes
of `msg` (`"init 1 \nkw"`) and not the slice at the cursor (`"orker 12 \n"`);
two successive reads of 10 bytes from position 0 hand over the same 10 bytes
twice. -/
theorem read_serves_buffer_start :
    succeeds 10 10 10 ∧
    (dev_read msgA 10 10 10).ret = 10 ∧
    (dev_read msgA 10 10 10).offset = 20 ∧
    (dev_read msgA 10 10 10).user = bytes "init 1 \nkw" ∧
    (msgA.drop 10).take 10 = bytes "orker 12 \n" ∧
    (dev_read msgA 10 10 10).user ≠ (msgA.drop 10).take 10 ∧
    (run msgA 0 [Call.read 10 10, Call.read 10 10]).map Outcome.user
      = [bytes "init 1 \nkw", bytes "init 1 \nkw"] := by
  decide

/-- Claim C3 as stated fails (Scenario B): on the buffer of Scenario A, whose
text is 20 bytes long, a read of 100 bytes at position 21 returns 100 and moves
the position to 121. -/
theorem eof_at_valid_length_fails :
    strlen msgA ≤ 21 ∧
    (dev_read msgA 100 100 21).ret = 100 ∧
    (dev_read msgA 100 100 21).offset = 121 ∧
    ¬ ((dev_read msgA 100 100 21).ret = 0 ∧ (dev_read msgA 100 100 21).offset = 21) := by
  decide

/-- Claim C3, amended: at position `BUF_LEN` every read, of any requested
length and into any caller buffer, returns 0, transfers nothing and leaves the
position and `msg` unchanged, and so does every read of any sequence of reads
after it. -/
theorem eof_at_capacity (msg : List Nat) (room length : Nat) (reads : List (Nat × Nat)) :
    dev_read msg room length BUF_LEN
      = { ret := 0, msg := msg, offset := BUF_LEN, user := [] } ∧
    run msg BUF_LEN (reads.map (fun r => Call.read r.1 r.2))
      = List.replicate reads.length { ret := 0, msg := msg, offset := BUF_LEN, user := [] } ∧
    finalPos msg BUF_LEN (reads.map (fun r => Call.read r.1 r.2)) = BUF_LEN := by
  have one : ∀ room length, dev_read msg room length BUF_LEN
      = { ret := 0, msg := msg, offset := BUF_LEN, user := [] } := by
    intro room length
    have hc : read_count length BUF_LEN = 0 := by
      rw [read_count_in_range length BUF_LEN (by decide) (le_refl _)]
      omega
    unfold dev_read
    simp only [hc]
    have hz : toU64 0 = 0 := by decide
    rw [hz]
    simp [copy_to_user, toS64_small (BUF_LEN : Int) (by decide) (le_refl _)]
  refine ⟨one room length, ?_, ?_⟩
  · induction reads with
    | nil => rfl
    | cons r rs ih =>
      simp only [List.map_cons, run, call, one, List.length_cons, List.replicate_succ]
      rw [ih]
  · induction reads with
    | nil => rfl
    | cons r rs ih =>
      simp only [List.map_cons, finalPos, call, one]
      exact ih

/-- Claim C7: for every buffer, position and requested length, a read whose
transfer fails returns `-EFAULT` and leaves the position and `msg` as they
were; a read never changes `msg`; and a read returns `-EFAULT` only when its
transfer failed (for requested lengths or caller buffers of at most
`SSIZE_MAX` bytes). -/
theorem read_fault_atomic (msg : List Nat) (room length : Nat) (offset : Int) :
    (¬ succeeds room length offset →
      (dev_read msg room length offset).ret = -EFAULT ∧
      (dev_read msg room length offset).offset = offset ∧
      (dev_read msg room length offset).msg = msg) ∧
    (dev_read msg room length offset).msg = msg ∧
    (length ≤ SSIZE_MAX ∨ room ≤ SSIZE_MAX →
      (dev_read msg room length offset).ret = -EFAULT → ¬ succeeds room length offset) := by
  refine ⟨fun h => ?_, dev_read_msg _ _ _ _, fun hb hret hok => ?_⟩
  · have := dev_read_fault msg room length offset h
    exact ⟨this.1, this.2, dev_read_msg _ _ _ _⟩
  · rw [(dev_read_ok msg room length offset hok).1] at hret
    unfold succeeds copy_to_user at hok
    unfold read_count toU64 toS64 at hok hret
    unfold EFAULT at hret
    unfold SSIZE_MAX at hb
    simp only at hok hret
    split at hret <;> split at hret <;> omega

/-- Instance of `read_fault_atomic`: a read of 10 bytes at position 0 into a
caller buffer with room for 4 bytes only. -/
theorem read_fault_atomic_witness :
    (¬ succeeds 4 10 0 ∧ (10 ≤ SSIZE_MAX ∨ 4 ≤ SSIZE_MAX)) ∧
    ((dev_read msgA 4 10 0).ret = -EFAULT ∧
      (dev_read msgA 4 10 0).offset = 0 ∧
      (dev_read msgA 4 10 0).msg = msgA) ∧
    ¬ succeeds 4 10 0 :=
  ⟨⟨by decide, Or.inl (by decide)⟩,
    (read_fault_atomic msgA 4 10 0).1 (by decide),
    (read_fault_atomic msgA 4 10 0).2.2 (Or.inl (by decide)) (by decide)⟩

/-! ## Writes and sessions -/

/-- Claim C5: for every caller buffer, every length `len` and every position,
`dev_write` leaves `msg` and the position unchanged and stores nothing, so that
any read issued after the write gives the same result as the same read issued
before it; it returns exactly `len` for every `len` that the returned
`ssize_t` can hold (`len ≤ SSIZE_MAX`); in particular a write of length 42 at
position 0 returns 42. -/
theorem write_pure (msg buffer : List Nat) (len : Nat) (offset : Int) :
    (dev_write msg buffer len offset).msg = msg ∧
    (dev_write msg buffer len offset).offset = offset ∧
    (∀ room length,
      dev_read (dev_write msg buffer len offset).msg room length
          (dev_write msg buffer len offset).offset
        = dev_read msg room length offset) ∧
    (len ≤ SSIZE_MAX → (dev_write msg buffer len offset).ret = len) ∧
    (dev_write msg buffer 42 0).ret = 42 := by
  have h42 : toS64 ((42 : Nat) : Int) = 42 := by decide
  refine ⟨rfl, rfl, fun _ _ => rfl, fun hlen => ?_, h42⟩
  unfold dev_write
  simp only
  unfold toS64
  unfold SSIZE_MAX at hlen
  split <;> omega

/-- Instance of `write_pure` (Scenario D): a write of 42 bytes at position 0
on the buffer of Scenario A returns 42. -/
theorem write_pure_witness :
    42 ≤ SSIZE_MAX ∧
    (dev_write msgA (bytes "anything") 42 0).ret = ((42 : Nat) : Int) :=
  ⟨by decide, (write_pure msgA (bytes "anything") 42 0).2.2.2.1 (by decide)⟩

/-- Claim C8: in a session started at position 0, after any sequence `pre` of
reads and writes (any lengths, any caller buffers), the next call `c` does not
decrease the position, a successful read increases it by exactly the
non-negative byte count it returns, a failed read and a write leave it
unchanged, and the position after any continuation is not below the position
after `pre`. -/
theorem offset_monotonic (msg : List Nat) (pre more : List Call) (c : Call) :
    finalPos msg 0 pre ≤ (call msg (finalPos msg 0 pre) c).offset ∧
    finalPos msg 0 pre ≤ finalPos msg 0 (pre ++ more) ∧
    (∀ room length, c = Call.read room length →
      succeeds room length (finalPos msg 0 pre) →
        0 ≤ (call msg (finalPos msg 0 pre) c).ret ∧
        (call msg (finalPos msg 0 pre) c).offset
          = finalPos msg 0 pre + (call msg (finalPos msg 0 pre) c).ret) ∧
    (∀ room length, c = Call.read room length →
      ¬ succeeds room length (finalPos msg 0 pre) →
        (call msg (finalPos msg 0 pre) c).ret = -EFAULT ∧
        (call msg (finalPos msg 0 pre) c).offset = finalPos msg 0 pre) ∧
    (∀ buffer len, c = Call.write buffer len →
      (call msg (finalPos msg 0 pre) c).offset = finalPos msg 0 pre) := by
  obtain ⟨h0, h1⟩ := finalPos_range msg 0 pre (le_refl _) (by decide)
  refine ⟨(call_offset_range msg _ c h0 h1).1, ?_, ?_, ?_, ?_⟩
  · rw [finalPos_append]
    exact (finalPos_range msg _ more h0 h1).1
  · intro room length hc hok
    subst hc
    have h := dev_read_in_range msg room length _ h0 h1 hok
    simp only [call]
    rw [h.1, h.2]
    exact ⟨by omega, rfl⟩
  · intro room length hc hbad
    subst hc
    exact dev_read_fault msg room length _ hbad
  · intro buffer len hc
    subst hc
    rfl

/-- Instances of `offset_monotonic` after a read of 10 bytes and a write: a
successful read of 5 bytes moves the position from 10 to 15, a read of 5 bytes
into a caller buffer of 2 bytes fails and leaves it at 10, and so does a
write. -/
theorem offset_monotonic_witness :
    (succeeds 5 5 (finalPos msgA 0 [Call.read 10 10, Call.write [] 3]) ∧
      ¬ succeeds 2 5 (finalPos msgA 0 [Call.read 10 10, Call.write [] 3])) ∧
    (0 ≤ (call msgA (finalPos msgA 0 [Call.read 10 10, Call.write [] 3]) (Call.read 5 5)).ret ∧
      (call msgA (finalPos msgA 0 [Call.read 10 10, Call.write [] 3]) (Call.read 5 5)).offset
        = finalPos msgA 0 [Call.read 10 10, Call.write [] 3]
          + (call msgA (finalPos msgA 0 [Call.read 10 10, Call.write [] 3])
              (Call.read 5 5)).ret) ∧
    ((call msgA (finalPos msgA 0 [Call.read 10 10, Call.write [] 3]) (Call.read 2 5)).ret
        = -EFAULT ∧
      (call msgA (finalPos msgA 0 [Call.read 10 10, Call.write [] 3]) (Call.read 2 5)).offset
        = finalPos msgA 0 [Call.read 10 10, Call.write [] 3]) ∧
    (call msgA (finalPos msgA 0 [Call.read 10 10, Call.write [] 3]) (Call.write [] 7)).offset
      = finalPos msgA 0 [Call.read 10 10, Call.write [] 3] :=
  ⟨⟨by decide, by decide⟩,
    (offset_monotonic msgA [Call.read 10 10, Call.write [] 3] [] (Call.read 5 5)).2.2.1
      5 5 rfl (by decide),
    (offset_monotonic msgA [Call.read 10 10, Call.write [] 3] [] (Call.read 2 5)).2.2.2.1
      2 5 rfl (by decide),
    (offset_monotonic msgA [Call.read 10 10, Call.write [] 3] [] (Call.write [] 7)).2.2.2.2
      [] 7 rfl⟩

/-- Claim C10: for every position `p` with `0 ≤ p ≤ BUF_LEN` and every
requested length, whatever the text in `msg`, a successful read returns
`min length (BUF_LEN - p)` and moves the position to
`p + min length (BUF_LEN - p) ≤ BUF_LEN`; a read returns 0 exactly when the
requested length is 0 or `p = BUF_LEN`; and in a session started at position 0
the position stays within `[0, BUF_LEN]` and the byte counts of the successful
reads sum to the final position, hence to at most `BUF_LEN`. -/
theorem read_capacity_bound (msg : List Nat) (room length : Nat) (p : Int)
    (calls : List Call) (h0 : 0 ≤ p) (h1 : p ≤ BUF_LEN) :
    (succeeds room length p →
      (dev_read msg room length p).ret = min (length : Int) ((BUF_LEN : Int) - p) ∧
      (dev_read msg room length p).offset = p + min (length : Int) ((BUF_LEN : Int) - p) ∧
      (dev_read msg room length p).offset ≤ BUF_LEN) ∧
    ((dev_read msg room length p).ret = 0 ↔ length = 0 ∨ p = BUF_LEN) ∧
    (0 ≤ finalPos msg 0 calls ∧ finalPos msg 0 calls ≤ BUF_LEN) ∧
    bytesRead msg 0 calls = finalPos msg 0 calls ∧
    bytesRead msg 0 calls ≤ BUF_LEN := by
  have hf := finalPos_range msg 0 calls (le_refl _) (by decide)
  have hb := bytesRead_eq msg 0 calls (le_refl _) (by decide)
  refine ⟨fun hok => ?_, ?_, hf, by omega, by omega⟩
  · have h := dev_read_in_range msg room length p h0 h1 hok
    refine ⟨h.1, h.2, ?_⟩
    rw [h.2]
    omega
  · have hc := read_count_in_range length p h0 h1
    by_cases hok : succeeds room length p
    · rw [(dev_read_in_range msg room length p h0 h1 hok).1]
      omega
    · rw [(dev_read_fault msg room length p hok).1]
      have hne : ¬ (length = 0 ∨ p = (BUF_LEN : Int)) := by
        intro hz
        apply hok
        have : read_count length p = 0 := by
          rw [hc]
          omega
        unfold succeeds
        rw [this]
        simp [copy_to_user, toU64]
      unfold EFAULT
      constructor
      · intro h
        omega
      · intro h
        exact absurd h hne

/-- Instance of `read_capacity_bound`: a read of 100 bytes at position 7950
returns the 50 bytes left up to the capacity. -/
theorem read_capacity_bound_witness :
    ((0 : Int) ≤ 7950 ∧ (7950 : Int) ≤ BUF_LEN ∧ succeeds 100 100 7950) ∧
    (dev_read msgA 100 100 7950).ret = min ((100 : Nat) : Int) ((BUF_LEN : Int) - 7950) ∧
    (dev_read msgA 100 100 7950).offset
      = 7950 + min ((100 : Nat) : Int) ((BUF_LEN : Int) - 7950) ∧
    (dev_read msgA 100 100 7950).offset ≤ BUF_LEN :=
  ⟨⟨by decide, by decide, by decide⟩,
    (read_capacity_bound msgA 100 100 7950 [] (by decide) (by decide)).1 (by decide)⟩

/-! ## Opens -/

theorem take_sprintf_task (m : List Nat) (t : Task) :
    (sprintf_task m t).take (strlen m + (fmt t).length + 1) = cstr m ++ fmt t ++ [0] := by
  unfold sprintf_task store
  rw [take_strlen]
  have hl : strlen m + (fmt t).length + 1 = (cstr m ++ (fmt t ++ [0])).length := by
    simp [strlen]
    omega
  rw [hl, List.take_left]
  simp

/-- Claim C4, evaluated at a failing input: starting from the zeroed buffer of a
freshly loaded module, one open with a process table of 2001 tasks leaves a
text longer than `BUF_LEN` in memory: bytes were stored behind the array. -/
theorem dev_open_overflows :
    msg0.length = BUF_LEN ∧ strlen msg0 ≤ BUF_LEN ∧ manyTasks.length = 2001 ∧
    BUF_LEN < strlen (dev_open msg0 manyTasks).msg ∧
    BUF_LEN < (dev_open msg0 manyTasks).msg.length := by
  have hn : manyTasks.length = 2001 := by simp [manyTasks]
  have hs : BUF_LEN < strlen (dev_open msg0 manyTasks).msg := by
    rw [strlen_dev_open]
    have := listing_length_ge manyTasks
    rw [hn] at this
    unfold BUF_LEN
    omega
  refine ⟨msg0_length, ?_, hn, hs, lt_of_lt_of_le hs (strlen_le _)⟩
  rw [show strlen msg0 = 0 from by decide]
  exact Nat.zero_le _

/-- Claim C6: for every buffer of `BUF_LEN` bytes holding a text `s` and every
process table whose lines, with the terminating NUL, fit behind `s`, after
`dev_open` the text is `s` followed by the lines `"<name> <id> \n"` of the
tasks in enumeration order, nothing is stored outside the array and the open
returns 0.  On an empty buffer the text is exactly the listing, and a second
open that fits appends its listing behind that of the first. -/
theorem dev_open_appends_listing (m : List Nat) (tasks more : List Task)
    (hm : m.length = BUF_LEN)
    (hfit : strlen m + ((tasks.map line).flatten).length + 1 ≤ BUF_LEN) :
    cstr (dev_open m tasks).msg = cstr m ++ (tasks.map line).flatten ∧
    (dev_open m tasks).msg.length = BUF_LEN ∧
    (dev_open m tasks).ret = 0 ∧
    (cstr m = [] → cstr (dev_open m tasks).msg = (tasks.map line).flatten) ∧
    (strlen m + ((tasks.map line).flatten).length + ((more.map line).flatten).length + 1
        ≤ BUF_LEN →
      cstr (dev_open (dev_open m tasks).msg more).msg
        = cstr m ++ (tasks.map line).flatten ++ (more.map line).flatten ∧
      (dev_open (dev_open m tasks).msg more).msg.length = BUF_LEN) := by
  rw [map_line_eq] at hfit
  rw [map_line_eq, map_line_eq]
  have htxt := cstr_dev_open m tasks
  have hlen : (dev_open m tasks).msg.length = BUF_LEN := by
    rw [length_dev_open_fits m tasks (by omega), hm]
  refine ⟨htxt, hlen, rfl, ?_, ?_⟩
  · intro he
    rw [htxt, he, List.nil_append]
  · intro hfit2
    constructor
    · rw [cstr_dev_open, htxt]
    · rw [length_dev_open_fits _ more, hlen]
      rw [strlen_dev_open, hlen]
      omega

/-- Instance of `dev_open_appends_listing`: two opens of Scenario A on the
zeroed buffer. -/
theorem dev_open_appends_listing_witness :
    (msg0.length = BUF_LEN ∧
      strlen msg0 + ((scenarioA.map line).flatten).length + 1 ≤ BUF_LEN ∧
      cstr msg0 = [] ∧
      strlen msg0 + ((scenarioA.map line).flatten).length
        + ((scenarioA.map line).flatten).length + 1 ≤ BUF_LEN) ∧
    cstr (dev_open msg0 scenarioA).msg = cstr msg0 ++ (scenarioA.map line).flatten ∧
    (dev_open msg0 scenarioA).msg.length = BUF_LEN ∧
    (dev_open msg0 scenarioA).ret = 0 ∧
    cstr (dev_open msg0 scenarioA).msg = (scenarioA.map line).flatten ∧
    cstr (dev_open (dev_open msg0 scenarioA).msg scenarioA).msg
      = cstr msg0 ++ (scenarioA.map line).flatten ++ (scenarioA.map line).flatten ∧
    (dev_open (dev_open msg0 scenarioA).msg scenarioA).msg.length = BUF_LEN :=
  have h := dev_open_appends_listing msg0 scenarioA scenarioA msg0_length (by decide)
  ⟨⟨msg0_length, by decide, msg0_empty, by decide⟩,
    h.1, h.2.1, h.2.2.1, h.2.2.2.1 msg0_empty, h.2.2.2.2 (by decide)⟩

/-- Claim C9 as stated fails: after the open of Scenario A on the zeroed
buffer the text is `"init 1 \nkworker 12 \n"`, but neither that text nor the
valid length is 21: both are 20. -/
theorem scenarioA_length_is_not_21 :
    cstr msg0 = [] ∧
    cstr (dev_open msg0 scenarioA).msg = bytes "init 1 \nkworker 12 \n" ∧
    (bytes "init 1 \nkworker 12 \n").length ≠ 21 ∧
    strlen (dev_open msg0 scenarioA).msg ≠ 21 := by
  decide

/-- Claim C9, amended: starting from any empty message buffer of `BUF_LEN`
bytes, when the enumeration yields `[("init", 1), ("kworker", 12)]`, after
`dev_open` the text is `"init 1 \nkworker 12 \n"`, which is 20 bytes long, and
the valid length is 20 (21 bytes are stored, counting the terminating NUL). -/
theorem scenarioA_snapshot (m : List Nat) (hm : m.length = BUF_LEN) (he : cstr m = []) :
    cstr (dev_open m scenarioA).msg = bytes "init 1 \nkworker 12 \n" ∧
    (bytes "init 1 \nkworker 12 \n").length = 20 ∧
    strlen (dev_open m scenarioA).msg = 20 ∧
    (dev_open m scenarioA).msg.take 21 = bytes "init 1 \nkworker 12 \n" ++ [0] ∧
    (dev_open m scenarioA).msg.length = BUF_LEN := by
  have hl : listing scenarioA = bytes "init 1 \nkworker 12 \n" := by decide
  have hs : strlen m = 0 := by simp [strlen, he]
  have htxt : cstr (dev_open m scenarioA).msg = bytes "init 1 \nkworker 12 \n" := by
    rw [cstr_dev_open, he, hl, List.nil_append]
  refine ⟨htxt, by decide, ?_, ?_, ?_⟩
  · unfold strlen
    rw [htxt]
    decide
  · have h1 : cstr (sprintf_task m ⟨bytes "init", 1⟩) = bytes "init 1 \n" := by
      rw [cstr_sprintf_task, he]
      decide
    have h2 := take_sprintf_task (sprintf_task m ⟨bytes "init", 1⟩) ⟨bytes "kworker", 12⟩
    rw [h1] at h2
    have h3 : strlen (sprintf_task m ⟨bytes "init", 1⟩) = 8 := by
      unfold strlen
      rw [h1]
      decide
    rw [h3] at h2
    have h4 : 8 + (fmt ⟨bytes "kworker", 12⟩).length + 1 = 21 := by decide
    rw [h4] at h2
    have h5 : (dev_open m scenarioA).msg
        = sprintf_task (sprintf_task m ⟨bytes "init", 1⟩) ⟨bytes "kworker", 12⟩ := rfl
    rw [h5, h2]
    decide
  · rw [length_dev_open_fits m scenarioA, hm]
    rw [hs, hl, hm]
    decide

/-- Instance of `scenarioA_snapshot` on the zeroed buffer. -/
theorem scenarioA_snapshot_witness :
    (msg0.length = BUF_LEN ∧ cstr msg0 = []) ∧
    cstr (dev_open msg0 scenarioA).msg = bytes "init 1 \nkworker 12 \n" ∧
    (bytes "init 1 \nkworker 12 \n").length = 20 ∧
    strlen (dev_open msg0 scenarioA).msg = 20 ∧
    (dev_open msg0 scenarioA).msg.take 21 = bytes "init 1 \nkworker 12 \n" ++ [0] ∧
    (dev_open msg0 scenarioA).msg.length = BUF_LEN :=
  ⟨⟨msg0_length, msg0_empty⟩, scenarioA_snapshot msg0 msg0_length msg0_empty⟩

end Chardrv
